import Mathlib

/-!
Verification of the early-boot core of the `gem` kernel repository.

The development shallowly embeds:
* `src/kernel/src/core_requirements.rs` — the `memcpy`, `memmove`, `memcmp`
  byte primitives (memory is a map from byte addresses to byte values;
  pointer arithmetic is modelled on `Nat`, since valid byte ranges do not
  wrap around the address space);
* `src/kernel/src/idt/mod.rs` — `idt_set_descriptor` and `idt_init`,
  modelled as a trace of the primitive actions the routine performs,
  replayed over an explicit table state;
* `src/shared/efi/src/lib.rs` — `EfiMemoryType` classification,
  `register_system_table`, and `get_memory_map` with the firmware
  `GetMemoryMap` call abstracted as an oracle.
-/

/-- A byte: the Rust `u8` type. -/
abbrev Byte := Fin 256

/-- Byte-addressed memory. Valid ranges in the kernel do not wrap, so
addresses are naturals. -/
abbrev Mem := Nat → Byte

/-- Write one byte at address `a`. -/
def wr (m : Mem) (a : Nat) (v : Byte) : Mem :=
  fun x => if x = a then v else m x

@[simp] theorem wr_same (m : Mem) (a : Nat) (v : Byte) : wr m a v a = v := by
  simp [wr]

theorem wr_other (m : Mem) (a : Nat) (v : Byte) (x : Nat) (h : x ≠ a) :
    wr m a v x = m x := by
  simp [wr, h]

/-- `memcpy` from `src/kernel/src/core_requirements.rs`: `rep movsb`, i.e. a
forward, ascending, one-byte-at-a-time copy of `n` bytes from `s` to `d`.
Each iteration reads the current memory, so overlapping ranges with
`s < d` see earlier writes, exactly as the string instruction does. -/
def memcpy : Mem → Nat → Nat → Nat → Mem
  | m, _, _, 0 => m
  | m, d, s, n + 1 => memcpy (wr m d (m s)) (d + 1) (s + 1) n

/-- When the ranges do not conflict for a forward copy (`d ≤ s`, or the
ranges are disjoint with `d` above), `memcpy` is the pure block copy. -/
theorem memcpy_spec : ∀ (n : Nat) (m : Mem) (d s : Nat),
    (d ≤ s ∨ s + n ≤ d) → ∀ a,
    memcpy m d s n a = if d ≤ a ∧ a < d + n then m (s + (a - d)) else m a := by
  intro n
  induction n with
  | zero =>
    intro m d s _ a
    have h : ¬ (d ≤ a ∧ a < d + 0) := by omega
    rw [show memcpy m d s 0 = m from rfl, if_neg h]
  | succ k ih =>
    intro m d s hcond a
    have hcond' : d + 1 ≤ s + 1 ∨ (s + 1) + k ≤ d + 1 := by omega
    have step : memcpy m d s (k + 1) a
        = memcpy (wr m d (m s)) (d + 1) (s + 1) k a := rfl
    rw [step, ih (wr m d (m s)) (d + 1) (s + 1) hcond' a]
    by_cases h1 : d + 1 ≤ a ∧ a < d + 1 + k
    · -- inside the recursive window
      have haddr : s + 1 + (a - (d + 1)) = s + (a - d) := by omega
      have hne : s + (a - d) ≠ d := by omega
      have h2 : d ≤ a ∧ a < d + (k + 1) := by omega
      rw [if_pos h1, if_pos h2, haddr, wr_other _ _ _ _ hne]
    · rw [if_neg h1]
      by_cases h3 : a = d
      · have h2 : d ≤ a ∧ a < d + (k + 1) := by omega
        rw [if_pos h2, show s + (a - d) = s by omega, h3, wr_same]
      · have h2 : ¬ (d ≤ a ∧ a < d + (k + 1)) := by omega
        rw [if_neg h2, wr_other _ _ _ _ h3]

/-- Little-endian composition of the 8 bytes at `p`, as performed by
`core::ptr::read_unaligned::<u64>` on x86-64. -/
def readU64 (m : Mem) (p : Nat) : Nat :=
  (m p).val + 256 * ((m (p + 1)).val + 256 * ((m (p + 2)).val +
  256 * ((m (p + 3)).val + 256 * ((m (p + 4)).val + 256 * ((m (p + 5)).val +
  256 * ((m (p + 6)).val + 256 * (m (p + 7)).val))))))

/-- Little-endian store of a 64-bit value at `p`, as performed by
`core::ptr::write::<u64>` on x86-64: byte `j` of the window receives
`v / 256^j % 256`. -/
def writeU64 (m : Mem) (p : Nat) (v : Nat) : Mem :=
  fun a =>
    if p ≤ a ∧ a < p + 8 then
      ⟨v / 256 ^ (a - p) % 256, Nat.mod_lt _ (by norm_num)⟩
    else m a

/-- Digit extraction: reading back byte `j` of a little-endian composed
64-bit value returns the byte that was composed in. -/
theorem readU64_digit (m : Mem) (p : Nat) (j : Nat) (hj : j < 8) :
    readU64 m p / 256 ^ j % 256 = (m (p + j)).val := by
  have b0 := (m p).isLt
  have b1 := (m (p + 1)).isLt
  have b2 := (m (p + 2)).isLt
  have b3 := (m (p + 3)).isLt
  have b4 := (m (p + 4)).isLt
  have b5 := (m (p + 5)).isLt
  have b6 := (m (p + 6)).isLt
  have b7 := (m (p + 7)).isLt
  unfold readU64
  interval_cases j <;>
    simp only [pow_succ, pow_zero, one_mul, Nat.add_zero] <;>
    norm_num <;> omega

/-- The first loop of the overlapping branch of `memmove` (overhang `< 64`):
copy backwards one byte at a time while the remaining count is nonzero and
`dest + n` is not 8-byte aligned. Returns the memory and the remaining
count. -/
def alignLoop (d s : Nat) : Mem → Nat → Mem × Nat
  | m, 0 => (m, 0)
  | m, k + 1 =>
    if (d + (k + 1)) % 8 ≠ 0 then alignLoop d s (wr m (d + k) (m (s + k))) k
    else (m, k + 1)

/-- The second loop of the overlapping branch (overhang `< 64`): move
8-byte strides backwards (`read_unaligned`, then `write`) while at least
8 bytes remain. -/
def strideLoop (d s : Nat) : Mem → Nat → Mem × Nat
  | m, k + 8 => strideLoop d s (writeU64 m (d + k) (readU64 m (s + k))) k
  | m, k => (m, k)

/-- The third loop of the overlapping branch (overhang `< 64`): finish the
remaining bytes backwards, one at a time, down to zero. -/
def tailLoop (d s : Nat) : Mem → Nat → Mem
  | m, 0 => m
  | m, k + 1 => tailLoop d s (wr m (d + k) (m (s + k))) k

/-- The chunk loop of the large-overhang branch of `memmove`: while at
least `o` bytes remain, retreat by `o` and `memcpy` an `o`-byte chunk.
The guard also requires `0 < o` (in the source `o ≥ 64` holds on entry). -/
def chunkLoop (d s o : Nat) (m : Mem) (k : Nat) : Mem × Nat :=
  if h : 0 < o ∧ o ≤ k then
    chunkLoop d s o (memcpy m (d + (k - o)) (s + (k - o)) o) (k - o)
  else (m, k)
  termination_by k
  decreasing_by omega

/-- `memmove` from `src/kernel/src/core_requirements.rs`. If `dest` is
above `src` and the ranges overlap: for overhang `< 64`, run the three
backward loops; otherwise run the chunk loop and finish with a plain
`memcpy` of any remainder. All other inputs fall through to `memcpy`. -/
def memmove (m : Mem) (d s n : Nat) : Mem :=
  if d > s ∧ s + n > d then
    let o := d - s
    if o < 64 then
      let p1 := alignLoop d s m n
      let p2 := strideLoop d s p1.1 p1.2
      tailLoop d s p2.1 p2.2
    else
      let p := chunkLoop d s o m n
      if p.2 = 0 then p.1 else memcpy p.1 d s p.2
  else memcpy m d s n

/-- The byte-by-byte reference semantics of `memmove`: every destination
byte receives the corresponding source byte as it was before the call,
and all other bytes are untouched. -/
def memmoveRef (m : Mem) (d s n : Nat) : Mem :=
  fun a => if d ≤ a ∧ a < d + n then m (s + (a - d)) else m a

/-- Intermediate state of a backward copy: the top `n - k` destination
bytes already hold their final (reference) values, everything below
`d + k` is still the original memory. -/
def midRef (m : Mem) (d s n k : Nat) : Mem :=
  fun a => if d + k ≤ a ∧ a < d + n then m (s + (a - d)) else m a

theorem midRef_self (m : Mem) (d s n : Nat) : midRef m d s n n = m := by
  funext a
  have h : ¬ (d + n ≤ a ∧ a < d + n) := by omega
  rw [midRef, if_neg h]

theorem midRef_zero (m : Mem) (d s n : Nat) :
    midRef m d s n 0 = memmoveRef m d s n := by
  funext a
  rw [midRef, memmoveRef, Nat.add_zero]

theorem midRef_lo (m : Mem) (d s n k : Nat) (a : Nat) (h : a < d + k) :
    midRef m d s n k a = m a := by
  rw [midRef, if_neg (by omega)]

/-- One backward byte step turns the intermediate state at `k + 1` into
the intermediate state at `k`. -/
theorem wr_midRef_step (m : Mem) (d s n k : Nat) (hsd : s ≤ d) (hk : k < n) :
    wr (midRef m d s n (k + 1)) (d + k) ((midRef m d s n (k + 1)) (s + k))
      = midRef m d s n k := by
  have hsrc : (midRef m d s n (k + 1)) (s + k) = m (s + k) :=
    midRef_lo m d s n (k + 1) (s + k) (by omega)
  funext a
  by_cases ha : a = d + k
  · rw [ha, wr_same, hsrc, midRef, if_pos (by omega),
      show s + (d + k - d) = s + k by omega]
  · rw [wr_other _ _ _ _ ha, midRef, midRef]
    by_cases h1 : d + (k + 1) ≤ a ∧ a < d + n
    · rw [if_pos h1, if_pos (by omega)]
    · rw [if_neg h1, if_neg (by omega)]

/-- The backward tail loop completes any intermediate state. -/
theorem tailLoop_mid (m : Mem) (d s n : Nat) (hsd : s ≤ d) :
    ∀ k, k ≤ n → tailLoop d s (midRef m d s n k) k = memmoveRef m d s n := by
  intro k
  induction k with
  | zero => intro _; rw [tailLoop, midRef_zero]
  | succ j ih =>
    intro hk
    rw [tailLoop, wr_midRef_step m d s n j hsd (by omega)]
    exact ih (by omega)

/-- The alignment loop maps an intermediate state at `k` to an
intermediate state at some `k' ≤ k`. -/
theorem alignLoop_mid (m : Mem) (d s n : Nat) (hsd : s ≤ d) :
    ∀ k, k ≤ n → ∃ k', k' ≤ k ∧
      alignLoop d s (midRef m d s n k) k = (midRef m d s n k', k') := by
  intro k
  induction k with
  | zero => intro _; exact ⟨0, Nat.le_refl 0, rfl⟩
  | succ j ih =>
    intro hk
    rw [alignLoop]
    by_cases hc : (d + (j + 1)) % 8 ≠ 0
    · rw [if_pos hc, wr_midRef_step m d s n j hsd (by omega)]
      obtain ⟨k', hle, he⟩ := ih (by omega)
      exact ⟨k', by omega, he⟩
    · rw [if_neg hc]
      exact ⟨j + 1, Nat.le_refl _, rfl⟩

/-- One backward 8-byte stride turns the intermediate state at `k + 8`
into the intermediate state at `k`. -/
theorem writeU64_midRef_step (m : Mem) (d s n k : Nat)
    (hsd : s ≤ d) (hk : k + 8 ≤ n) :
    writeU64 (midRef m d s n (k + 8)) (d + k)
        (readU64 (midRef m d s n (k + 8)) (s + k))
      = midRef m d s n k := by
  have hread : readU64 (midRef m d s n (k + 8)) (s + k) = readU64 m (s + k) := by
    rw [readU64, readU64,
      midRef_lo m d s n (k + 8) (s + k) (by omega),
      midRef_lo m d s n (k + 8) (s + k + 1) (by omega),
      midRef_lo m d s n (k + 8) (s + k + 2) (by omega),
      midRef_lo m d s n (k + 8) (s + k + 3) (by omega),
      midRef_lo m d s n (k + 8) (s + k + 4) (by omega),
      midRef_lo m d s n (k + 8) (s + k + 5) (by omega),
      midRef_lo m d s n (k + 8) (s + k + 6) (by omega),
      midRef_lo m d s n (k + 8) (s + k + 7) (by omega)]
  funext a
  rw [writeU64, hread]
  by_cases hwin : d + k ≤ a ∧ a < d + k + 8
  · rw [if_pos hwin]
    have hdig := readU64_digit m (s + k) (a - (d + k)) (by omega)
    have haddr : s + k + (a - (d + k)) = s + (a - d) := by omega
    rw [haddr] at hdig
    have hgoal : midRef m d s n k a = m (s + (a - d)) := by
      rw [midRef, if_pos (by omega)]
    rw [hgoal]
    exact Fin.ext hdig
  · rw [if_neg hwin, midRef, midRef]
    by_cases h1 : d + (k + 8) ≤ a ∧ a < d + n
    · rw [if_pos h1, if_pos (by omega)]
    · rw [if_neg h1, if_neg (by omega)]

/-- The 8-byte stride loop maps an intermediate state at `k` to an
intermediate state at some `k' ≤ k`. -/
theorem strideLoop_mid (m : Mem) (d s n : Nat) (hsd : s ≤ d) :
    ∀ k, k ≤ n → ∃ k', k' ≤ k ∧
      strideLoop d s (midRef m d s n k) k = (midRef m d s n k', k') := by
  intro k
  induction k using Nat.strong_induction_on with
  | _ k ih =>
    intro hk
    rcases Nat.lt_or_ge k 8 with h8 | h8
    · refine ⟨k, Nat.le_refl k, ?_⟩
      interval_cases k <;> rfl
    · obtain ⟨j, rfl⟩ : ∃ j, k = j + 8 := ⟨k - 8, by omega⟩
      rw [show strideLoop d s (midRef m d s n (j + 8)) (j + 8)
          = strideLoop d s
              (writeU64 (midRef m d s n (j + 8)) (d + j)
                (readU64 (midRef m d s n (j + 8)) (s + j))) j from rfl,
        writeU64_midRef_step m d s n j hsd (by omega)]
      obtain ⟨k', hle, he⟩ := ih j (by omega) (by omega)
      exact ⟨k', by omega, he⟩

/-- One chunk `memcpy` of the large-overhang branch turns the intermediate
state at `k` into the intermediate state at `k - o`. -/
theorem chunk_step (m : Mem) (d s n k : Nat) (hsd : s < d) (hk : k ≤ n)
    (ho : d - s ≤ k) :
    memcpy (midRef m d s n k) (d + (k - (d - s))) (s + (k - (d - s))) (d - s)
      = midRef m d s n (k - (d - s)) := by
  set o := d - s with ho_def
  have hdisj : s + (k - o) + o ≤ d + (k - o) ∨ d + (k - o) ≤ s + (k - o) := by
    omega
  funext a
  rw [memcpy_spec o (midRef m d s n k) (d + (k - o)) (s + (k - o))
    (Or.symm hdisj) a]
  by_cases hwin : d + (k - o) ≤ a ∧ a < d + (k - o) + o
  · rw [if_pos hwin, show s + (k - o) + (a - (d + (k - o))) = s + (a - d) by omega,
      midRef_lo m d s n k (s + (a - d)) (by omega), midRef, if_pos (by omega)]
  · rw [if_neg hwin, midRef, midRef]
    by_cases h1 : d + k ≤ a ∧ a < d + n
    · rw [if_pos h1, if_pos (by omega)]
    · rw [if_neg h1, if_neg (by omega)]

/-- The chunk loop maps an intermediate state at `k` to an intermediate
state at some `k' ≤ k` with `k' < o`. -/
theorem chunkLoop_mid (m : Mem) (d s n : Nat) (hsd : s < d) :
    ∀ k, k ≤ n → ∃ k', k' ≤ k ∧ k' < d - s ∧
      chunkLoop d s (d - s) (midRef m d s n k) k = (midRef m d s n k', k') := by
  intro k
  induction k using Nat.strong_induction_on with
  | _ k ih =>
    intro hk
    rw [chunkLoop]
    by_cases hc : 0 < d - s ∧ d - s ≤ k
    · rw [dif_pos hc, chunk_step m d s n k hsd hk hc.2]
      obtain ⟨k', h1, h2, he⟩ := ih (k - (d - s)) (by omega) (by omega)
      exact ⟨k', by omega, h2, he⟩
    · rw [dif_neg hc]
      exact ⟨k, Nat.le_refl k, by omega, rfl⟩

/-- The trailing `memcpy` of the large-overhang branch (remainder smaller
than the overhang) completes the intermediate state. -/
theorem final_memcpy_mid (m : Mem) (d s n k : Nat) (hsd : s ≤ d)
    (hk : k ≤ n) (hko : s + k ≤ d) :
    memcpy (midRef m d s n k) d s k = memmoveRef m d s n := by
  funext a
  rw [memcpy_spec k (midRef m d s n k) d s (by omega) a]
  by_cases hwin : d ≤ a ∧ a < d + k
  · rw [if_pos hwin, midRef_lo m d s n k (s + (a - d)) (by omega),
      memmoveRef, if_pos (by omega)]
  · rw [if_neg hwin, midRef, memmoveRef]
    by_cases h1 : d + k ≤ a ∧ a < d + n
    · rw [if_pos h1, if_pos (by omega)]
    · rw [if_neg h1, if_neg (by omega)]

/-- `memmove` agrees with the byte-by-byte reference on every input. -/
theorem memmove_correct (m : Mem) (d s n : Nat) :
    memmove m d s n = memmoveRef m d s n := by
  rw [memmove]
  by_cases hov : d > s ∧ s + n > d
  · rw [if_pos hov]
    have hsd : s ≤ d := by omega
    by_cases ho : d - s < 64
    · rw [if_pos ho]
      obtain ⟨k1, hk1, e1⟩ := alignLoop_mid m d s n hsd n (Nat.le_refl n)
      obtain ⟨k2, hk2, e2⟩ := strideLoop_mid m d s n hsd k1 hk1
      show tailLoop d s (strideLoop d s (alignLoop d s m n).1
        (alignLoop d s m n).2).1 (strideLoop d s (alignLoop d s m n).1
        (alignLoop d s m n).2).2 = memmoveRef m d s n
      rw [show alignLoop d s m n = alignLoop d s (midRef m d s n n) n by
        rw [midRef_self], e1]
      show tailLoop d s (strideLoop d s (midRef m d s n k1) k1).1
        (strideLoop d s (midRef m d s n k1) k1).2 = memmoveRef m d s n
      rw [e2]
      exact tailLoop_mid m d s n hsd k2 (by omega)
    · rw [if_neg ho]
      obtain ⟨k1, hk1, hk1o, e1⟩ :=
        chunkLoop_mid m d s n (by omega) n (Nat.le_refl n)
      show (if (chunkLoop d s (d - s) m n).2 = 0
          then (chunkLoop d s (d - s) m n).1
          else memcpy (chunkLoop d s (d - s) m n).1 d s
            (chunkLoop d s (d - s) m n).2) = memmoveRef m d s n
      rw [show chunkLoop d s (d - s) m n
          = chunkLoop d s (d - s) (midRef m d s n n) n by rw [midRef_self], e1]
      by_cases hz : k1 = 0
      · subst hz
        rw [if_pos rfl]
        exact midRef_zero m d s n
      · rw [if_neg hz]
        exact final_memcpy_mid m d s n k1 hsd hk1 (by omega)
  · rw [if_neg hov]
    funext a
    rw [memcpy_spec n m d s (by omega) a, memmoveRef]

/-- C1: for every destination range, source range, and length `n` up to
512 (any overlap configuration, any byte alignment of the two ranges),
`move(dest, src, n)` leaves every byte equal to what the trivial
read-before-conflicting-write byte-by-byte reference produces. -/
theorem memmove_matches_reference (m : Mem) (d s n : Nat) (hn : n ≤ 512)
    (a : Nat) : memmove m d s n a = memmoveRef m d s n a := by
  rw [memmove_correct]

/-- A concrete memory for witnesses: byte at address `a` is `a % 256`. -/
def witMem : Mem := fun a => ⟨a % 256, Nat.mod_lt _ (by norm_num)⟩

theorem memmove_matches_reference_witness :
    (20 ≤ 512) ∧ memmove witMem 11 8 20 15 = memmoveRef witMem 11 8 20 15 :=
  ⟨by norm_num, memmove_matches_reference witMem 11 8 20 (by norm_num) 15⟩

/-- `memcmp` from `src/kernel/src/core_requirements.rs`, with the running
index made explicit: compare bytes at ascending indices starting at `i`,
with `k` comparisons remaining; return the `i32` difference
`(a as i32).wrapping_sub(b as i32)` at the first mismatch (no wrap occurs
since both operands are bytes), or `0` when all bytes agree. -/
def memcmpAux (x y : Mem) (i : Nat) : Nat → Int
  | 0 => 0
  | k + 1 =>
    if x i = y i then memcmpAux x y (i + 1) k
    else (x i : Int) - (y i : Int)

/-- `memcmp(s1, s2, n)`: the loop starts at index 0 with `n` comparisons. -/
def memcmp (x y : Mem) (n : Nat) : Int := memcmpAux x y 0 n

theorem memcmpAux_zero_iff (x y : Mem) :
    ∀ k i, (memcmpAux x y i k = 0 ↔ ∀ j, j < k → x (i + j) = y (i + j)) := by
  intro k
  induction k with
  | zero => intro i; simp [memcmpAux]
  | succ k ih =>
    intro i
    rw [memcmpAux]
    by_cases hx : x i = y i
    · rw [if_pos hx, ih (i + 1)]
      constructor
      · intro h j hj
        match j with
        | 0 => exact hx
        | j + 1 =>
          rw [show i + (j + 1) = i + 1 + j by omega]
          exact h j (by omega)
      · intro h j hj
        rw [show i + 1 + j = i + (j + 1) by omega]
        exact h (j + 1) (by omega)
    · rw [if_neg hx]
      constructor
      · intro h
        exfalso
        have hne : ((x i : Int) - (y i : Int)) ≠ 0 := by
          intro hc
          exact hx (Fin.ext (by omega))
        exact hne h
      · intro h
        exact absurd (h 0 (by omega)) (by simpa using hx)

theorem memcmpAux_first_diff (x y : Mem) :
    ∀ k i j, j < k → (∀ l, l < j → x (i + l) = y (i + l)) →
      x (i + j) ≠ y (i + j) →
      memcmpAux x y i k = (x (i + j) : Int) - (y (i + j) : Int) := by
  intro k
  induction k with
  | zero => intro i j hj; omega
  | succ k ih =>
    intro i j hj hpre hne
    rw [memcmpAux]
    match j with
    | 0 =>
      rw [if_neg (by simpa using hne), Nat.add_zero]
    | j + 1 =>
      have hx : x i = y i := by simpa using hpre 0 (by omega)
      rw [if_pos hx]
      have := ih (i + 1) j (by omega)
        (fun l hl => by
          rw [show i + 1 + l = i + (l + 1) by omega]
          exact hpre (l + 1) (by omega))
        (by rw [show i + 1 + j = i + (j + 1) by omega]; exact hne)
      rw [this, show i + 1 + j = i + (j + 1) by omega]

/-- C5: `compare(a, b, n)` returns 0 iff the first `n` bytes agree;
otherwise, if `i` is the first differing index, it returns exactly the
signed difference of the bytes at `i` (hence nonzero, with the sign of
that difference), having examined indices in ascending order. -/
theorem memcmp_spec (x y : Mem) (n : Nat) :
    (memcmp x y n = 0 ↔ ∀ j, j < n → x j = y j) ∧
    (∀ i, i < n → (∀ l, l < i → x l = y l) → x i ≠ y i →
      memcmp x y n = (x i : Int) - (y i : Int) ∧ memcmp x y n ≠ 0) := by
  constructor
  · rw [memcmp, memcmpAux_zero_iff x y n 0]
    constructor
    · intro h j hj
      have := h j hj
      rwa [Nat.zero_add] at this
    · intro h j hj
      rw [Nat.zero_add]
      exact h j hj
  · intro i hi hpre hne
    have hfirst := memcmpAux_first_diff x y n 0 i hi
      (fun l hl => by rw [Nat.zero_add]; exact hpre l hl)
      (by rw [Nat.zero_add]; exact hne)
    rw [Nat.zero_add] at hfirst
    refine ⟨hfirst, ?_⟩
    have h2 : memcmp x y n = (x i : Int) - (y i : Int) := hfirst
    rw [h2]
    intro hc
    exact hne (Fin.ext (by omega))

/-- The spec's example inputs: `a = [1,2,3]`, `b = [1,2,5]`. -/
def exA : Mem := fun a => if a = 0 then 1 else if a = 1 then 2 else 3

def exB : Mem := fun a => if a = 0 then 1 else if a = 1 then 2 else 5

theorem memcmp_spec_witness :
    (2 < 3) ∧ memcmp exA exB 3 = (exA 2 : Int) - (exB 2 : Int) ∧
      memcmp exA exB 3 = -2 ∧ memcmp exA exB 3 < 0 :=
  ⟨by norm_num,
   ((memcmp_spec exA exB 3).2 2 (by norm_num)
      (by intro l hl; interval_cases l <;> rfl) (by decide)).1,
   by decide, by decide⟩

/-- One IDT entry, `struct IDT` from `src/kernel/src/idt/mod.rs`
(`repr(packed)`: 2 + 2 + 1 + 1 + 2 + 4 + 4 = 16 bytes). -/
structure IDTEntry where
  isr_low : Nat
  kernel_cs : Nat
  ist : Nat
  attributes : Nat
  isr_mid : Nat
  isr_high : Nat
  reserved : Nat
deriving DecidableEq

/-- The entry built by `idt_set_descriptor` for handler address `isr`
(a 64-bit function pointer) and attribute byte `flags`. -/
def mkDescriptor (isr flags : Nat) : IDTEntry where
  isr_low := isr % 65536
  kernel_cs := 0x8
  ist := 0
  attributes := flags
  isr_mid := isr / 65536 % 65536
  isr_high := isr / 4294967296 % 4294967296
  reserved := 0

/-- The primitive actions `idt_init` performs, in order: stores to the
`idtr_t` fields, calls to `idt_set_descriptor`, and the final `lidt`. -/
inductive IdtEvent
  | setLimit (v : Nat)
  | setBase (v : Nat)
  | writeEntry (vec : Nat) (isr : Nat) (flags : Nat)
  | loadIdt
deriving DecidableEq

/-- The mutable state `idt_init` acts on: the 256-entry table
(`idt_entry_t`, indexed by vector), the `idtr_t` register payload, and
the payload last loaded by `lidt` (read from `idtr_t` at load time). -/
structure IdtState where
  entries : Nat → IDTEntry
  limit : Nat
  base : Nat
  loaded : Option (Nat × Nat)

theorem IdtState.ext_of (a b : IdtState) (h1 : a.entries = b.entries)
    (h2 : a.limit = b.limit) (h3 : a.base = b.base)
    (h4 : a.loaded = b.loaded) : a = b := by
  cases a; cases b; simp_all

/-- Replay one action. -/
def applyEvent (st : IdtState) : IdtEvent → IdtState
  | .setLimit v => { st with limit := v }
  | .setBase v => { st with base := v }
  | .writeEntry vec isr flags =>
      { st with entries := Function.update st.entries vec (mkDescriptor isr flags) }
  | .loadIdt => { st with loaded := some (st.limit, st.base) }

/-- Replay a sequence of actions. -/
def applyEvents (st : IdtState) (l : List IdtEvent) : IdtState :=
  l.foldl applyEvent st

/-- The action trace of `idt_init`, given the addresses of
`default_handler`, `page_fault`, `breakpoint`, `double_fault`, and of the
table itself: set `idtr_t.limit` to `size_of::<IDT>() * 256 - 1 = 4095`
and `idtr_t.base`, default-fill all 256 vectors (`for i in 0..=255`),
specialize vectors `0xE`, `0x3`, `0x8`, then execute `lidt`. -/
def idtTrace (defA pfA bpA dfA tblBase : Nat) : List IdtEvent :=
  [.setLimit (16 * 256 - 1), .setBase tblBase]
  ++ (List.range 256).map (fun i => .writeEntry i defA 0x8E)
  ++ [.writeEntry 0xE pfA 0x8E, .writeEntry 0x3 bpA 0x8E,
      .writeEntry 0x8 dfA 0x8E, .loadIdt]

/-- A fold of identical `writeEntry` actions over a list of vectors sets
exactly the listed slots and leaves everything else in the state alone. -/
theorem applyEvents_fill (a f : Nat) : ∀ (l : List Nat) (s : IdtState),
    (applyEvents s (l.map (fun i => .writeEntry i a f))).entries
      = (fun v => if v ∈ l then mkDescriptor a f else s.entries v) ∧
    (applyEvents s (l.map (fun i => .writeEntry i a f))).limit = s.limit ∧
    (applyEvents s (l.map (fun i => .writeEntry i a f))).base = s.base ∧
    (applyEvents s (l.map (fun i => .writeEntry i a f))).loaded = s.loaded := by
  intro l
  induction l with
  | nil =>
    intro s
    refine ⟨funext fun v => ?_, rfl, rfl, rfl⟩
    simp [applyEvents]
  | cons i t ih =>
    intro s
    have step : applyEvents s (((i :: t).map (fun i => .writeEntry i a f)))
        = applyEvents (applyEvent s (.writeEntry i a f))
            (t.map (fun i => .writeEntry i a f)) := rfl
    obtain ⟨he, hl, hb, ho⟩ := ih (applyEvent s (.writeEntry i a f))
    rw [step]
    refine ⟨funext fun v => ?_, hl, hb, ho⟩
    rw [he]
    by_cases hm : v ∈ t
    · simp [hm]
    · by_cases hv : v = i
      · simp [hm, hv, applyEvent, Function.update_same]
      · simp [hm, hv, applyEvent, Function.update_noteq hv]

/-- The table contents after `idt_init`: specialized vectors `0x8`,
`0x3`, `0xE` on top of a default fill. -/
def idtFinalEntries (defA pfA bpA dfA : Nat) (e0 : Nat → IDTEntry) :
    Nat → IDTEntry :=
  Function.update (Function.update (Function.update
    (fun v => if v < 256 then mkDescriptor defA 0x8E else e0 v)
    0xE (mkDescriptor pfA 0x8E)) 0x3 (mkDescriptor bpA 0x8E))
    0x8 (mkDescriptor dfA 0x8E)

/-- Replaying the `idt_init` trace from an all-zero table (the static
initializer of `idt_entry_t` and `idtr_t`) yields one fixed final state. -/
theorem idt_init_final (defA pfA bpA dfA tblBase : Nat) (s : IdtState) :
    applyEvents s (idtTrace defA pfA bpA dfA tblBase)
      = { entries := idtFinalEntries defA pfA bpA dfA s.entries,
          limit := 4095, base := tblBase, loaded := some (4095, tblBase) } := by
  have hsplit : idtTrace defA pfA bpA dfA tblBase
      = [.setLimit (16 * 256 - 1), .setBase tblBase]
        ++ ((List.range 256).map (fun i => .writeEntry i defA 0x8E)
        ++ [.writeEntry 0xE pfA 0x8E, .writeEntry 0x3 bpA 0x8E,
            .writeEntry 0x8 dfA 0x8E, .loadIdt]) := by
    rw [idtTrace, List.append_assoc]
  rw [hsplit, applyEvents, List.foldl_append, List.foldl_append]
  set s1 : IdtState := { s with limit := 16 * 256 - 1, base := tblBase } with hs1
  have h1 : List.foldl applyEvent s
      [.setLimit (16 * 256 - 1), .setBase tblBase] = s1 := rfl
  rw [h1]
  obtain ⟨he, hl, hb, ho⟩ := applyEvents_fill defA 0x8E (List.range 256) s1
  rw [applyEvents] at he hl hb ho
  obtain ⟨s2, hs2⟩ : ∃ x, List.foldl applyEvent s1
      ((List.range 256).map (fun i => IdtEvent.writeEntry i defA 0x8E)) = x :=
    ⟨_, rfl⟩
  rw [hs2] at he hl hb ho ⊢
  have hfold : List.foldl applyEvent s2 [.writeEntry 0xE pfA 0x8E,
      .writeEntry 0x3 bpA 0x8E, .writeEntry 0x8 dfA 0x8E, .loadIdt]
      = { entries := Function.update (Function.update (Function.update
            s2.entries 0xE (mkDescriptor pfA 0x8E)) 0x3 (mkDescriptor bpA 0x8E))
            0x8 (mkDescriptor dfA 0x8E),
          limit := s2.limit, base := s2.base,
          loaded := some (s2.limit, s2.base) } := rfl
  rw [hfold]
  refine IdtState.ext_of _ _ ?_ ?_ ?_ ?_
  · show Function.update (Function.update (Function.update
      s2.entries 0xE (mkDescriptor pfA 0x8E)) 0x3 (mkDescriptor bpA 0x8E))
      0x8 (mkDescriptor dfA 0x8E) = idtFinalEntries defA pfA bpA dfA s.entries
    rw [idtFinalEntries, he]
    have hbase : (fun v => if v ∈ List.range 256
        then mkDescriptor defA 0x8E else s1.entries v)
        = (fun v => if v < 256 then mkDescriptor defA 0x8E else s.entries v) := by
      funext v
      by_cases hv : v < 256
      · simp [List.mem_range, hv]
      · have hs : s1.entries v = s.entries v := rfl
        simp [List.mem_range, hv, hs]
    rw [hbase]
  · show s2.limit = 4095
    rw [hl]
  · show s2.base = tblBase
    rw [hb]
  · show some (s2.limit, s2.base) = some (4095, tblBase)
    rw [hl, hb]

/-- Reassemble the handler address from the low/mid/high fields of a
descriptor. -/
def reassembleAddr (e : IDTEntry) : Nat :=
  e.isr_low + e.isr_mid * 65536 + e.isr_high * 4294967296

theorem reassemble_mkDescriptor (a f : Nat) (ha : a < 2 ^ 64) :
    reassembleAddr (mkDescriptor a f) = a := by
  rw [reassembleAddr, mkDescriptor]
  simp only []
  omega

/-- C2: after `idt_init`, every one of the 256 vectors holds a descriptor
with attribute byte `0x8E` whose address fields reassemble to the default
handler, except vectors `0xE`, `0x3`, `0x8`, which reassemble to the
page-fault, breakpoint, and double-fault handlers respectively. -/
theorem idt_init_populates (defA pfA bpA dfA tblBase : Nat) (s : IdtState)
    (hd : defA < 2 ^ 64) (hp : pfA < 2 ^ 64) (hbp : bpA < 2 ^ 64)
    (hdf : dfA < 2 ^ 64) (v : Nat) (hv : v < 256) :
    (((applyEvents s (idtTrace defA pfA bpA dfA tblBase)).entries v).attributes
        = 0x8E) ∧
    (reassembleAddr ((applyEvents s (idtTrace defA pfA bpA dfA tblBase)).entries v)
        = if v = 0xE then pfA else if v = 0x3 then bpA
          else if v = 0x8 then dfA else defA) := by
  rw [idt_init_final]
  show ((idtFinalEntries defA pfA bpA dfA s.entries) v).attributes = 0x8E ∧ _
  simp only [idtFinalEntries, Function.update_apply]
  by_cases h8 : v = 8
  · subst h8
    norm_num
    exact ⟨rfl, reassemble_mkDescriptor dfA 0x8E hdf⟩
  · by_cases h3 : v = 3
    · subst h3
      norm_num
      exact ⟨rfl, reassemble_mkDescriptor bpA 0x8E hbp⟩
    · by_cases h14 : v = 14
      · subst h14
        norm_num
        exact ⟨rfl, reassemble_mkDescriptor pfA 0x8E hp⟩
      · have hc8 : (v = 0x8) = False := by simp [h8]
        have hc3 : (v = 0x3) = False := by simp [h3]
        have hc14 : (v = 0xE) = False := by simp [h14]
        simp only [hc8, hc3, hc14, if_false, if_pos hv]
        exact ⟨rfl, reassemble_mkDescriptor defA 0x8E hd⟩

/-- The all-zero boot state: static initializers of `idt_entry_t` and
`idtr_t`, nothing loaded. -/
def idtZeroState : IdtState where
  entries := fun _ =>
    { isr_low := 0, kernel_cs := 0, ist := 0, attributes := 0,
      isr_mid := 0, isr_high := 0, reserved := 0 }
  limit := 0
  base := 0
  loaded := none

theorem idt_init_populates_witness :
    ((0x123456789ABCDEF0 < 2 ^ 64) ∧ (1 < 2 ^ 64) ∧ (2 < 2 ^ 64) ∧
      (3 < 2 ^ 64) ∧ (0 < 256)) ∧
    (((applyEvents idtZeroState
        (idtTrace 0x123456789ABCDEF0 1 2 3 4096)).entries 0).attributes = 0x8E) ∧
    (reassembleAddr ((applyEvents idtZeroState
        (idtTrace 0x123456789ABCDEF0 1 2 3 4096)).entries 0)
      = 0x123456789ABCDEF0) :=
  ⟨⟨by norm_num, by norm_num, by norm_num, by norm_num, by norm_num⟩, by
    have h := idt_init_populates 0x123456789ABCDEF0 1 2 3 4096 idtZeroState
      (by norm_num) (by norm_num) (by norm_num) (by norm_num) 0 (by norm_num)
    simpa using h⟩

/-- The final table is a fixed point of the rebuild. -/
theorem idtFinalEntries_stable (dA pA bA fA : Nat) (e0 : Nat → IDTEntry) :
    idtFinalEntries dA pA bA fA (idtFinalEntries dA pA bA fA e0)
      = idtFinalEntries dA pA bA fA e0 := by
  funext v
  simp only [idtFinalEntries, Function.update_apply]
  by_cases h8 : v = 8
  · simp [h8]
  · by_cases h3 : v = 3
    · simp [h8, h3]
    · by_cases h14 : v = 14
      · simp [h8, h3, h14]
      · by_cases hlt : v < 256
        · simp [h8, h3, h14, hlt]
        · simp [h8, h3, h14, hlt]

/-- C8: running `idt_init` twice leaves the table and the register
payload in the same final state as running it once. -/
theorem idt_init_idempotent (defA pfA bpA dfA tblBase : Nat) (s : IdtState) :
    applyEvents (applyEvents s (idtTrace defA pfA bpA dfA tblBase))
        (idtTrace defA pfA bpA dfA tblBase)
      = applyEvents s (idtTrace defA pfA bpA dfA tblBase) := by
  rw [idt_init_final defA pfA bpA dfA tblBase s,
    idt_init_final defA pfA bpA dfA tblBase _]
  refine IdtState.ext_of _ _ ?_ rfl rfl rfl
  show idtFinalEntries defA pfA bpA dfA
      (idtFinalEntries defA pfA bpA dfA s.entries)
    = idtFinalEntries defA pfA bpA dfA s.entries
  exact idtFinalEntries_stable defA pfA bpA dfA s.entries

/-- Is this action a write of one trap descriptor? -/
def IdtEvent.isEntryWrite : IdtEvent → Bool
  | .writeEntry _ _ _ => true
  | _ => false

/-- Is this action a store to one of the register-payload fields? -/
def IdtEvent.isPayloadSet : IdtEvent → Bool
  | .setLimit _ => true
  | .setBase _ => true
  | _ => false

/-- The claim that every register-payload store happens strictly after
every descriptor write in a trace. -/
def payloadAfterAllWrites (tr : List IdtEvent) : Prop :=
  ∀ i j ei ej, tr.get? i = some ei → tr.get? j = some ej →
    ei.isPayloadSet = true → ej.isEntryWrite = true → j < i

/-- C3 counterexample: in `idt_init` the register payload is stored
first (`idtr_t.limit` at trace position 0), before any of the 259
descriptor writes (the first is at position 2). -/
theorem idt_payload_not_after_writes :
    ¬ payloadAfterAllWrites (idtTrace 1 2 3 4 5) := by
  intro h
  have h0 : (idtTrace 1 2 3 4 5).get? 0 = some (.setLimit 4095) := by decide
  have h2 : (idtTrace 1 2 3 4 5).get? 2 = some (.writeEntry 0 1 0x8E) := by
    decide
  have := h 0 2 _ _ h0 h2 rfl rfl
  omega

/-- The trace of `idt_init` without its final `lidt`. -/
def idtBuildTrace (defA pfA bpA dfA tblBase : Nat) : List IdtEvent :=
  [.setLimit (16 * 256 - 1), .setBase tblBase]
  ++ (List.range 256).map (fun i => .writeEntry i defA 0x8E)
  ++ [.writeEntry 0xE pfA 0x8E, .writeEntry 0x3 bpA 0x8E,
      .writeEntry 0x8 dfA 0x8E]

/-- C3 (amended): the `lidt` instruction is the unique final action of
`idt_init`, issued only after the payload stores, the 256-entry default
fill, and the three specializations all appear in the preceding build
prefix; the payload stores, however, come first, not after the fill. -/
theorem idt_load_is_last (defA pfA bpA dfA tblBase : Nat) :
    idtTrace defA pfA bpA dfA tblBase
      = idtBuildTrace defA pfA bpA dfA tblBase ++ [.loadIdt] ∧
    (∀ e ∈ idtBuildTrace defA pfA bpA dfA tblBase, e ≠ .loadIdt) ∧
    IdtEvent.setLimit 4095 ∈ idtBuildTrace defA pfA bpA dfA tblBase ∧
    IdtEvent.setBase tblBase ∈ idtBuildTrace defA pfA bpA dfA tblBase ∧
    (∀ v, v < 256 →
      IdtEvent.writeEntry v defA 0x8E ∈ idtBuildTrace defA pfA bpA dfA tblBase) ∧
    IdtEvent.writeEntry 0xE pfA 0x8E ∈ idtBuildTrace defA pfA bpA dfA tblBase ∧
    IdtEvent.writeEntry 0x3 bpA 0x8E ∈ idtBuildTrace defA pfA bpA dfA tblBase ∧
    IdtEvent.writeEntry 0x8 dfA 0x8E ∈ idtBuildTrace defA pfA bpA dfA tblBase := by
  refine ⟨?_, ?_, ?_, ?_, ?_, ?_, ?_, ?_⟩
  · simp [idtTrace, idtBuildTrace]
  · intro e he
    simp only [idtBuildTrace, List.mem_append, List.mem_cons, List.mem_map,
      List.mem_range, List.not_mem_nil, or_false] at he
    rcases he with ((h | h) | ⟨i, _, h⟩) | (h | h | h)
    all_goals subst h
    all_goals simp
  · simp [idtBuildTrace]
  · simp [idtBuildTrace]
  · intro v hv
    rw [idtBuildTrace]
    refine List.mem_append.2 (Or.inl ?_)
    refine List.mem_append.2 (Or.inr ?_)
    exact List.mem_map.2 ⟨v, List.mem_range.2 hv, rfl⟩
  · simp [idtBuildTrace]
  · simp [idtBuildTrace]
  · simp [idtBuildTrace]

/-- `EfiStatus` from `src/shared/efi/src/lib.rs` (the codes relevant to
the boot path; the enum in the source also carries an
`InvalidEfiStatusCode` payload for unknown raw values). -/
inductive EfiStatus
  | EfiSuccess
  | EfiLoadError
  | EfiInvalidParameter
  | EfiUnsupported
  | EfiBadBufferSize
  | EfiBufferTooSmall
  | EfiNotReady
  | EfiDeviceError
  | EfiWriteProtected
  | EfiOutOfResources
  | EfiNotFound
  | EfiAccessDenied
  | EfiTimeout
  | EfiAborted
  | EfiWarnUnknownGlyph
  | EfiWarnStaleData
  | InvalidEfiStatusCode (raw : Nat)
deriving DecidableEq

/-- `EfiMemoryType` from `src/shared/efi/src/lib.rs` (the source's
`MemoryMappedIO` variant is spelled `MemoryMappedIo` here). -/
inductive EfiMemoryType
  | ReservedMemoryType
  | LoaderCode
  | LoaderData
  | BootServicesCode
  | BootServicesData
  | RuntimeServicesCode
  | RuntimeServicesData
  | ConventionalMemory
  | UnusableMemory
  | ACPIReclaimMemory
  | ACPIMemoryNVS
  | MemoryMappedIo
  | MemoryMappedIoPortSpace
  | PalCode
  | PersistentMemory
  | Invalid
deriving DecidableEq

/-- `EfiMemoryType::avail_post_exit_boot_services`: usable after the
boot-to-runtime handoff. -/
def EfiMemoryType.avail_post_exit_boot_services : EfiMemoryType → Bool
  | .BootServicesCode => true
  | .BootServicesData => true
  | .ConventionalMemory => true
  | .PersistentMemory => true
  | _ => false

/-- `impl From<u32> for EfiMemoryType`: raw codes 0-14 map to the listed
variants, everything else (written here as `_ + 15`, equivalent to the
source's wildcard arm) to `Invalid`. -/
def efiMemoryTypeFrom : Nat → EfiMemoryType
  | 0 => .ReservedMemoryType
  | 1 => .LoaderCode
  | 2 => .LoaderData
  | 3 => .BootServicesCode
  | 4 => .BootServicesData
  | 5 => .RuntimeServicesCode
  | 6 => .RuntimeServicesData
  | 7 => .ConventionalMemory
  | 8 => .UnusableMemory
  | 9 => .ACPIReclaimMemory
  | 10 => .ACPIMemoryNVS
  | 11 => .MemoryMappedIo
  | 12 => .MemoryMappedIoPortSpace
  | 13 => .PalCode
  | 14 => .PersistentMemory
  | _ + 15 => .Invalid

/-- Outcome of `register_system_table` on the `EFI_SYSTEM_TABLE`
`AtomicPtr`: a pointer is a `Nat`, `0` is null. `compare_exchange`
succeeds only from the null state and leaves the stored value unchanged
on failure, in which case `.expect` panics. -/
structure RegisterOutcome where
  table : Nat
  panicked : Bool
deriving DecidableEq

/-- `register_system_table` from `src/shared/efi/src/lib.rs`. -/
def register_system_table (st p : Nat) : RegisterOutcome :=
  if st = 0 then { table := p, panicked := false }
  else { table := st, panicked := true }

/-- C4: the firmware services pointer is published at most once: the
first registration from the unset state succeeds and stores `ptr1`; a
second registration panics and the published value is still `ptr1`. -/
theorem register_system_table_once (p1 p2 : Nat) (h1 : p1 ≠ 0) :
    (register_system_table 0 p1).panicked = false ∧
    (register_system_table 0 p1).table = p1 ∧
    (register_system_table (register_system_table 0 p1).table p2).panicked
      = true ∧
    (register_system_table (register_system_table 0 p1).table p2).table
      = p1 := by
  simp [register_system_table, h1]

theorem register_system_table_once_witness :
    ((5 : Nat) ≠ 0) ∧
    ((register_system_table 0 5).panicked = false ∧
     (register_system_table 0 5).table = 5 ∧
     (register_system_table (register_system_table 0 5).table 7).panicked
       = true ∧
     (register_system_table (register_system_table 0 5).table 7).table = 5) :=
  ⟨by norm_num, register_system_table_once 5 7 (by norm_num)⟩

/-- `EfiMemoryDescriptor` from `src/shared/efi/src/lib.rs` (`repr(C)`:
`u32` type code, four `u64` fields; in memory the struct is padded to
40 bytes with the first `u64` at offset 8). The source's `attribute`
field is spelled `attributes` here because `attribute` is reserved in
Lean. -/
structure EfiMemoryDescriptor where
  typ : Nat
  physical_start : Nat
  virtual_start : Nat
  number_of_pages : Nat
  attributes : Nat
deriving DecidableEq

/-- The accumulation the `get_memory_map` loop performs in `free_memory`
(a `u64`, hence the wrap at `2^64`): add `number_of_pages * 4096` for
every descriptor whose type is usable after `exit_boot_services`. -/
def totalAvailable (l : List EfiMemoryDescriptor) : Nat :=
  l.foldl (fun acc e =>
    if (efiMemoryTypeFrom e.typ).avail_post_exit_boot_services
    then (acc + e.number_of_pages * 4096 % 2 ^ 64) % 2 ^ 64
    else acc) 0

/-- The mathematical sum of `number_of_pages * 4096` over exactly the
usable descriptors. -/
def usableBytes (l : List EfiMemoryDescriptor) : Nat :=
  (l.map (fun e =>
    if (efiMemoryTypeFrom e.typ).avail_post_exit_boot_services
    then e.number_of_pages * 4096 else 0)).sum

theorem totalAvailable_aux : ∀ (l : List EfiMemoryDescriptor) (acc : Nat),
    acc + usableBytes l < 2 ^ 64 →
    l.foldl (fun acc e =>
      if (efiMemoryTypeFrom e.typ).avail_post_exit_boot_services
      then (acc + e.number_of_pages * 4096 % 2 ^ 64) % 2 ^ 64
      else acc) acc = acc + usableBytes l := by
  intro l
  induction l with
  | nil =>
    intro acc _
    simp [usableBytes]
  | cons e t ih =>
    intro acc hlt
    have hsplit : usableBytes (e :: t)
        = (if (efiMemoryTypeFrom e.typ).avail_post_exit_boot_services
           then e.number_of_pages * 4096 else 0) + usableBytes t := by
      simp [usableBytes]
    rw [List.foldl_cons]
    by_cases hav : (efiMemoryTypeFrom e.typ).avail_post_exit_boot_services
    · rw [if_pos hav]
      rw [hsplit, if_pos hav] at hlt ⊢
      have hterm : e.number_of_pages * 4096 < 2 ^ 64 := by omega
      rw [Nat.mod_eq_of_lt hterm,
        Nat.mod_eq_of_lt (by omega : acc + e.number_of_pages * 4096 < 2 ^ 64)]
      rw [ih (acc + e.number_of_pages * 4096) (by omega)]
      omega
    · rw [if_neg hav]
      rw [hsplit, if_neg hav] at hlt ⊢
      rw [ih acc (by omega)]
      omega

/-- C6: a memory descriptor classifies as usable-after-handoff exactly
when its raw type code is 3 (boot-services code), 4 (boot-services
data), 7 (conventional memory), or 14 (persistent memory); and for any
descriptor list whose usable-byte sum fits a `u64`, the accumulated
total equals the sum of `number_of_pages * 4096` over exactly the usable
descriptors. -/
theorem memory_classification_and_total :
    (∀ t : Nat, (efiMemoryTypeFrom t).avail_post_exit_boot_services = true ↔
      (t = 3 ∨ t = 4 ∨ t = 7 ∨ t = 14)) ∧
    (∀ l : List EfiMemoryDescriptor, usableBytes l < 2 ^ 64 →
      totalAvailable l = usableBytes l) := by
  constructor
  · intro t
    rcases Nat.lt_or_ge t 15 with h | h
    · interval_cases t <;>
        simp [efiMemoryTypeFrom, EfiMemoryType.avail_post_exit_boot_services]
    · obtain ⟨u, rfl⟩ : ∃ u, t = u + 15 := ⟨t - 15, by omega⟩
      constructor
      · intro hc
        exact absurd hc (by
          simp [efiMemoryTypeFrom, EfiMemoryType.avail_post_exit_boot_services])
      · intro hc
        omega
  · intro l hl
    have := totalAvailable_aux l 0 (by omega)
    rw [totalAvailable, this]
    omega

/-- The spec's fabricated descriptor list: conventional memory with 10
pages, reserved with 5 pages, boot-services data with 2 pages. -/
def exDescriptors : List EfiMemoryDescriptor :=
  [{ typ := 7, physical_start := 0, virtual_start := 0,
     number_of_pages := 10, attributes := 0 },
   { typ := 0, physical_start := 65536, virtual_start := 0,
     number_of_pages := 5, attributes := 0 },
   { typ := 4, physical_start := 131072, virtual_start := 0,
     number_of_pages := 2, attributes := 0 }]

theorem memory_classification_and_total_witness :
    (usableBytes exDescriptors < 2 ^ 64) ∧
    totalAvailable exDescriptors = 49152 := by
  refine ⟨by decide, ?_⟩
  rw [memory_classification_and_total.2 exDescriptors (by decide)]
  decide

/-- What one firmware `GetMemoryMap` call reports: a status, the map
byte size, the map key, the descriptor stride, the descriptor version,
and the bytes it wrote into the caller's buffer. -/
structure FwReply where
  status : EfiStatus
  size : Nat
  key : Nat
  mdescSize : Nat
  mdescVersion : Nat
  buf : Mem

/-- The offsets the decoding loop visits: `(0..size).step_by(mdesc_size)`,
i.e. the multiples of the stride below `size` (for a nonzero stride). -/
def stepOffsets (size stride : Nat) : List Nat :=
  (List.range size).filter (fun off => off % stride = 0)

/-- 32-bit little-endian load, as done for the `typ` field. -/
def readU32 (m : Mem) (p : Nat) : Nat :=
  (m p).val + 256 * ((m (p + 1)).val + 256 * ((m (p + 2)).val +
  256 * (m (p + 3)).val))

/-- `core::ptr::read_unaligned::<EfiMemoryDescriptor>` at buffer offset
`off`: `repr(C)` places `typ` at offset 0 and the four `u64` fields at
offsets 8, 16, 24, 32 (40 bytes read in total). -/
def decodeDescriptor (buf : Mem) (off : Nat) : EfiMemoryDescriptor where
  typ := readU32 buf off
  physical_start := readU64 buf (off + 8)
  virtual_start := readU64 buf (off + 16)
  number_of_pages := readU64 buf (off + 24)
  attributes := readU64 buf (off + 32)

/-- Observable outcome of one `get_memory_map` run. -/
inductive GmmOutcome
  | noFirmware
  | fatal (status : EfiStatus)
  | stepPanic
  | done (freeMemory : Nat)
deriving DecidableEq

/-- `get_memory_map` from `src/shared/efi/src/lib.rs`, with the firmware
call abstracted as an oracle `fw` of the capacity passed in (`4096`, the
fixed stack buffer size): if `EFI_SYSTEM_TABLE` is null, return without
calling firmware; if the reported status is not `EfiSuccess`, the
`assert!` panics; a zero stride makes `step_by` panic; otherwise walk
the reported bytes in stride steps, decoding one descriptor per offset
and accumulating `free_memory` over the usable ones. -/
def get_memory_map (st : Nat) (fw : Nat → FwReply) : GmmOutcome :=
  if st = 0 then .noFirmware
  else
    let r := fw 4096
    if r.status = .EfiSuccess then
      if r.mdescSize = 0 then .stepPanic
      else .done (totalAvailable
        ((stepOffsets r.size r.mdescSize).map (decodeDescriptor r.buf)))
    else .fatal r.status

/-- C7: the code treats a `EfiBufferTooSmall` report not as a retry
signal but as an assertion failure — the run panics instead of growing
the buffer and retrying. -/
theorem get_memory_map_panics_on_too_small (st : Nat) (fw : Nat → FwReply)
    (hst : st ≠ 0) (hbuf : (fw 4096).status = .EfiBufferTooSmall) :
    get_memory_map st fw = .fatal .EfiBufferTooSmall := by
  rw [get_memory_map, if_neg hst]
  show (if (fw 4096).status = .EfiSuccess then _ else _) = _
  rw [hbuf]
  rfl

/-- A firmware whose map needs 8192 bytes: the first (and only) call
reports `EfiBufferTooSmall`. -/
def fwTooSmall : Nat → FwReply := fun _ =>
  { status := .EfiBufferTooSmall, size := 8192, key := 0, mdescSize := 48,
    mdescVersion := 1, buf := fun _ => 0 }

theorem get_memory_map_panics_on_too_small_witness :
    ((1 : Nat) ≠ 0) ∧ ((fwTooSmall 4096).status = .EfiBufferTooSmall) ∧
    get_memory_map 1 fwTooSmall = .fatal .EfiBufferTooSmall :=
  ⟨by norm_num, rfl,
   get_memory_map_panics_on_too_small 1 fwTooSmall (by norm_num) rfl⟩

/-- C9: with `EFI_SYSTEM_TABLE` unset the operation returns immediately
without invoking firmware. (The Rust function's return type is `()` in
every case — the commented-out `free_memory` result is never returned —
so this early return is not distinguishable by the caller from any
other completed run.) -/
theorem get_memory_map_null_noop (fw : Nat → FwReply) :
    get_memory_map 0 fw = .noFirmware := by
  rw [get_memory_map, if_pos rfl]

/-- The claim that every descriptor read of the decoding loop (40 bytes
from each visited offset) stays inside the 4096-byte stack buffer, for
any reported size up to the buffer capacity and any nonzero stride. -/
def decodeReadsInBounds : Prop :=
  ∀ size stride, 0 < size → size ≤ 4096 → stride ≠ 0 →
    ∀ off ∈ stepOffsets size stride, off + 40 ≤ 4096

set_option maxRecDepth 100000 in
/-- C10 counterexample: with reported size 4096 and stride 4060 the loop
visits offset 4060 and reads bytes 4060..4099, past the buffer's end. -/
theorem decode_reads_past_buffer : ¬ decodeReadsInBounds := by
  intro h
  have hmem : 4060 ∈ stepOffsets 4096 4060 := by decide
  have := h 4096 4060 (by norm_num) (by norm_num) (by norm_num) 4060 hmem
  omega

/-- C10 (amended): for any reported size of at most 4056 bytes and any
stride, every 40-byte descriptor read of the loop stays inside the
4096-byte buffer. -/
theorem decode_reads_in_bounds_amended (size stride : Nat) (h0 : 0 < size)
    (hsz : size ≤ 4056) (hst : stride ≠ 0) :
    ∀ off ∈ stepOffsets size stride, off + 40 ≤ 4096 := by
  intro off hoff
  have : off < size := by
    have := List.mem_filter.1 hoff
    exact List.mem_range.1 this.1
  omega

set_option maxRecDepth 100000 in
theorem decode_reads_in_bounds_amended_witness :
    ((0 < 4056) ∧ (4056 ≤ 4056) ∧ ((48 : Nat) ≠ 0) ∧
      4032 ∈ stepOffsets 4056 48) ∧ 4032 + 40 ≤ 4096 :=
  ⟨⟨by norm_num, by norm_num, by norm_num, by decide⟩,
   decode_reads_in_bounds_amended 4056 48 (by norm_num) (by norm_num)
     (by norm_num) 4032 (by decide)⟩
